import Mathlib

/-!
Verification of the core logic of the `c-stpl` PDF splitting tool.

The development embeds, as Lean functions, the pure logic of:

* `PDFSplitter.validate_split_parameters`, `PDFSplitter.calculate_split_info`,
  `PDFSplitter._get_page_ranges` and the control flow of `PDFSplitter.split_pdf`
  (src/pdf_splitter.py);
* `FileManager.generate_output_filenames`, `FileManager.get_split_ranges` and
  `FileManager.handle_filename_conflicts` (src/file_manager.py);
* `PrinterManager.print_multiple_files` (src/printer_manager.py).

Filesystem and printer effects are abstracted as injected functions, matching
the way the Python code consumes them: an existence predicate for
`pathlib.Path.exists`, success predicates for page extraction and file
writing, and a per-file result function for `print_file`.  Python's
unbounded nonnegative loop counters and page numbers are modelled as `Nat`
(as `Int` where a parameter may be negative), and Python strings as `String`.
-/

namespace CStpl

/-- The list of decimal digit characters of `n`, most significant first.
`Nat.repr` (and hence Python's rendering of a nonnegative int in an f-string)
produces exactly these characters; see `toDigitsCore_eq_decDigits`. -/
def decDigits (n : Nat) : List Char :=
  if n < 10 then [Nat.digitChar n]
  else decDigits (n / 10) ++ [Nat.digitChar (n % 10)]
termination_by n
decreasing_by exact Nat.div_lt_self (by omega) (by omega)

/-- Decimal valuation of a character list, reading left to right. -/
def decVal (cs : List Char) : Nat :=
  cs.foldl (fun a c => 10 * a + (c.toNat - 48)) 0

/-- Embedding of the Python format expression `f"{n:03d}"` for nonnegative `n`:
the decimal representation of `n`, left-padded with zeros to width 3. -/
def pad3 (n : Nat) : String :=
  ⟨List.replicate (3 - (Nat.repr n).length) '0' ++ (Nat.repr n).data⟩

/-- A `pathlib.Path` as used by the tool: parent directory, stem and suffix.
`file_manager.py` manipulates output paths only through `.parent`, `.stem`
and `.suffix`, and all paths handled here share one parent and the fixed
suffix ".pdf", so two paths denote the same file iff the components agree. -/
structure FSPath where
  parent : String
  stem : String
  suffix : String
deriving DecidableEq

namespace PDFSplitter

/-- Embedding of Python's `range(0, stop, step)` for `step > 0`: the
`ceil(stop/step)` multiples of `step` below `stop`, in increasing order.
(For `step = 0` Python raises `ValueError`; no claim concerns that case and
this embedding returns `[]` there.) -/
def pyRange (stop step : Nat) : List Nat :=
  (List.range ((stop + step - 1) / step)).map (fun k => k * step)

/-- Embedding of `PDFSplitter._get_page_ranges` (src/pdf_splitter.py):

    for start in range(0, self.total_pages, pages_per_split):
        end = min(start + pages_per_split - 1, self.total_pages - 1)
        ranges.append((start + 1, end + 1))
-/
def get_page_ranges (totalPages pagesPerSplit : Nat) : List (Nat × Nat) :=
  (pyRange totalPages pagesPerSplit).map
    (fun start => (start + 1, min (start + pagesPerSplit - 1) (totalPages - 1) + 1))

/-- Embedding of `PDFSplitter.validate_split_parameters` (src/pdf_splitter.py).
Python ints are unbounded and may be negative, so the parameters are `Int`. -/
def validate_split_parameters (totalPages pagesPerSplit : Int) : Bool × String :=
  if pagesPerSplit ≤ 0 then
    (false, "Pages per split must be greater than 0")
  else if pagesPerSplit ≥ totalPages then
    (false, "Pages per split (" ++ toString pagesPerSplit ++
      ") should be less than total pages (" ++ toString totalPages ++ ")")
  else
    (true, "")

/-- The dict returned by `PDFSplitter.calculate_split_info`. -/
structure SplitInfo where
  total_pages : Nat
  pages_per_split : Nat
  num_splits : Nat
  last_split_pages : Nat
  ranges : List (Nat × Nat)

/-- Embedding of `PDFSplitter.calculate_split_info` (src/pdf_splitter.py):

    num_splits = (self.total_pages + pages_per_split - 1) // pages_per_split
    last_split_pages = self.total_pages % pages_per_split
    if last_split_pages == 0: last_split_pages = pages_per_split
-/
def calculate_split_info (totalPages pagesPerSplit : Nat) : SplitInfo :=
  ⟨totalPages, pagesPerSplit,
    (totalPages + pagesPerSplit - 1) / pagesPerSplit,
    if totalPages % pagesPerSplit = 0 then pagesPerSplit else totalPages % pagesPerSplit,
    get_page_ranges totalPages pagesPerSplit⟩

/-- The loop of `PDFSplitter.split_pdf` (src/pdf_splitter.py).  The whole
Python loop runs inside a single `try:`; any exception aborts the loop and
`split_pdf` returns `False`.  Each iteration, in source order: extracts the
pages of the current range (abstracted by the success predicate `extractOk`;
on failure an exception aborts everything), evaluates `output_files[i]` (an
`IndexError` aborts everything when the list is too short), and writes the
part file (`writeOk`; on failure an exception aborts everything).  The
returned list records the parts actually written, in order; the Bool is the
value `split_pdf` returns. -/
def splitLoop (extractOk : Nat × Nat → Bool) (writeOk : FSPath → Nat × Nat → Bool)
    (outputFiles : List FSPath) :
    List (Nat × Nat) → Nat → List (FSPath × Nat × Nat) → Bool × List (FSPath × Nat × Nat)
  | [], _, written => (true, written.reverse)
  | r :: rs, i, written =>
    if extractOk r then
      match outputFiles[i]? with
      | none => (false, written.reverse)
      | some f =>
        if writeOk f r then splitLoop extractOk writeOk outputFiles rs (i + 1) ((f, r) :: written)
        else (false, written.reverse)
    else (false, written.reverse)

/-- Embedding of `PDFSplitter.split_pdf` (src/pdf_splitter.py) for a loaded
document of `totalPages` pages. -/
def split_pdf (totalPages pagesPerSplit : Nat) (extractOk : Nat × Nat → Bool)
    (writeOk : FSPath → Nat × Nat → Bool) (outputFiles : List FSPath) :
    Bool × List (FSPath × Nat × Nat) :=
  splitLoop extractOk writeOk outputFiles (get_page_ranges totalPages pagesPerSplit) 0 []

end PDFSplitter

namespace FileManager

/-- Embedding of `FileManager.generate_output_filenames` (src/file_manager.py):

    num_splits = (total_pages + pages_per_split - 1) // pages_per_split
    for i in range(num_splits):
        filename = f"{self.base_name}_part_{i+1:03d}.pdf"
        output_path = self.output_dir / filename
-/
def generate_output_filenames (baseName outputDir : String)
    (totalPages pagesPerSplit : Nat) : List FSPath :=
  (List.range ((totalPages + pagesPerSplit - 1) / pagesPerSplit)).map
    (fun i => ⟨outputDir, baseName ++ "_part_" ++ pad3 (i + 1), ".pdf"⟩)

/-- Embedding of `FileManager.get_split_ranges` (src/file_manager.py); its loop
body is character-for-character the loop of `PDFSplitter._get_page_ranges`. -/
def get_split_ranges (totalPages pagesPerSplit : Nat) : List (Nat × Nat) :=
  (PDFSplitter.pyRange totalPages pagesPerSplit).map
    (fun start => (start + 1, min (start + pagesPerSplit - 1) (totalPages - 1) + 1))

/-- The `counter`-th name tried by the conflict loop of
`FileManager.handle_filename_conflicts`: the original path for `counter = 0`,
and `f"{stem}_{counter}{suffix}"` in the original parent for `counter ≥ 1`
(the Python loop always derives the new name from `original_path`). -/
def candidateName (orig : FSPath) : Nat → FSPath
  | 0 => orig
  | k + 1 => ⟨orig.parent, orig.stem ++ "_" ++ Nat.repr (k + 1), orig.suffix⟩

/-- The `while file_path.exists():` loop of `handle_filename_conflicts`,
testing candidates `k, k + 1, ...` against the injected existence predicate.
The Python loop is unbounded (it spins forever if every candidate exists);
`fuel` bounds the search here, and `none` means the loop did not finish
within `fuel` iterations. -/
def resolveFrom (ex : FSPath → Bool) (orig : FSPath) : Nat → Nat → Option FSPath
  | _, 0 => none
  | k, fuel + 1 =>
    if ex (candidateName orig k) then resolveFrom ex orig (k + 1) fuel
    else some (candidateName orig k)

/-- Embedding of `FileManager.handle_filename_conflicts` (src/file_manager.py):
each proposed path is resolved independently against the storage predicate,
results are collected in order.  `none` propagates nontermination of the
inner loop (see `resolveFrom`). -/
def handle_filename_conflicts (ex : FSPath → Bool) (fuel : Nat) :
    List FSPath → Option (List FSPath)
  | [] => some []
  | p :: ps =>
    match resolveFrom ex p 0 fuel, handle_filename_conflicts ex fuel ps with
    | some q, some qs => some (q :: qs)
    | _, _ => none

end FileManager

namespace PrinterManager

/-- Python dict assignment `results[k] = v` on a dict represented as its
insertion-ordered entry list: overwrite in place if the key is present,
append otherwise. -/
def dictInsert (m : List (String × Bool × String)) (k : String) (v : Bool × String) :
    List (String × Bool × String) :=
  if m.any (fun e => e.1 == k) then m.map (fun e => if e.1 == k then (k, v) else e)
  else m ++ [(k, v)]

/-- The loop of `PrinterManager.print_multiple_files` (src/printer_manager.py):
each path is dispatched to `print_file` in order, unconditionally, and the
result dict is updated with the outcome; the second accumulator records the
dispatch order. -/
def printGo (printFile : String → Bool × String) :
    List String → List (String × Bool × String) → List String →
      List (String × Bool × String) × List String
  | [], results, dispatched => (results, dispatched.reverse)
  | p :: ps, results, dispatched =>
    printGo printFile ps (dictInsert results p (printFile p)) (p :: dispatched)

/-- Embedding of `PrinterManager.print_multiple_files` (src/printer_manager.py):
returns the per-file result mapping (a dict keyed by the file path) and the
sequence of dispatches made to `print_file`. -/
def print_multiple_files (printFile : String → Bool × String) (filePaths : List String) :
    List (String × Bool × String) × List String :=
  printGo printFile filePaths [] []

end PrinterManager

/-! ### Decimal representation: `Nat.repr` produces the digit list `decDigits` -/

theorem toDigitsCore_eq_decDigits :
    ∀ (fuel n : Nat) (ds : List Char), n < fuel →
      Nat.toDigitsCore 10 fuel n ds = decDigits n ++ ds := by
  intro fuel
  induction fuel with
  | zero => intro n ds h; omega
  | succ fuel ih =>
    intro n ds h
    show (if n / 10 = 0 then Nat.digitChar (n % 10) :: ds
          else Nat.toDigitsCore 10 fuel (n / 10) (Nat.digitChar (n % 10) :: ds))
        = decDigits n ++ ds
    by_cases h10 : n / 10 = 0
    · have hn : n < 10 := by omega
      rw [if_pos h10, decDigits, if_pos hn, Nat.mod_eq_of_lt hn]
      rfl
    · have hge : 10 ≤ n := by
        by_contra hlt
        exact h10 (Nat.div_eq_of_lt (by omega))
      have hself : n / 10 < n := Nat.div_lt_self (by omega) (by omega)
      have hdlt : n / 10 < fuel := by omega
      rw [if_neg h10, ih (n / 10) _ hdlt]
      conv_rhs => rw [decDigits]
      rw [if_neg (by omega)]
      simp

theorem repr_data (n : Nat) : (Nat.repr n).data = decDigits n := by
  show (List.asString (Nat.toDigitsCore 10 (n + 1) n [])).data = decDigits n
  rw [toDigitsCore_eq_decDigits (n + 1) n [] (Nat.lt_succ_self n)]
  simp [List.asString]

theorem decDigits_digit (n : Nat) : ∀ c ∈ decDigits n, c.isDigit = true := by
  induction n using Nat.strong_induction_on with
  | _ n ih =>
    intro c hc
    rw [decDigits] at hc
    by_cases h10 : n < 10
    · rw [if_pos h10] at hc
      simp only [List.mem_singleton] at hc
      subst hc
      exact (by decide : ∀ m, m < 10 → (Nat.digitChar m).isDigit = true) n h10
    · rw [if_neg h10] at hc
      rcases List.mem_append.mp hc with h | h
      · exact ih (n / 10) (Nat.div_lt_self (by omega) (by omega)) c h
      · simp only [List.mem_singleton] at h
        subst h
        exact (by decide : ∀ m, m < 10 → (Nat.digitChar m).isDigit = true)
          (n % 10) (Nat.mod_lt _ (by omega))

theorem foldl_decDigits (n : Nat) :
    ∀ a : Nat, (decDigits n).foldl (fun a c => 10 * a + (c.toNat - 48)) a
      = a * 10 ^ (decDigits n).length + n := by
  induction n using Nat.strong_induction_on with
  | _ n ih =>
    intro a
    rw [decDigits]
    by_cases h10 : n < 10
    · rw [if_pos h10]
      have hchar : (Nat.digitChar n).toNat - 48 = n :=
        (by decide : ∀ m, m < 10 → (Nat.digitChar m).toNat - 48 = m) n h10
      simp [List.foldl, hchar]
      ring
    · rw [if_neg h10]
      have hq : n / 10 < n := Nat.div_lt_self (by omega) (by omega)
      have hchar : (Nat.digitChar (n % 10)).toNat - 48 = n % 10 :=
        (by decide : ∀ m, m < 10 → (Nat.digitChar m).toNat - 48 = m)
          (n % 10) (Nat.mod_lt _ (by omega))
      rw [List.foldl_append, ih (n / 10) hq a]
      simp [hchar, List.length_append]
      have hdm : 10 * (n / 10) + n % 10 = n := Nat.div_add_mod n 10
      calc 10 * (a * 10 ^ (decDigits (n / 10)).length + n / 10) + n % 10
        = a * (10 ^ (decDigits (n / 10)).length * 10) + (10 * (n / 10) + n % 10) := by ring
      _ = a * (10 ^ (decDigits (n / 10)).length * 10) + n := by rw [hdm]
      _ = a * 10 ^ ((decDigits (n / 10)).length + 1) + n := by rw [pow_succ]

theorem decVal_decDigits (n : Nat) : decVal (decDigits n) = n := by
  have := foldl_decDigits n 0
  simpa [decVal] using this

theorem repr_injective {m n : Nat} (h : Nat.repr m = Nat.repr n) : m = n := by
  have hd : decDigits m = decDigits n := by
    rw [← repr_data, ← repr_data, h]
  calc m = decVal (decDigits m) := (decVal_decDigits m).symm
  _ = decVal (decDigits n) := by rw [hd]
  _ = n := decVal_decDigits n

theorem pad3_data (n : Nat) :
    (pad3 n).data = List.replicate (3 - (decDigits n).length) '0' ++ decDigits n := by
  show (List.replicate (3 - (Nat.repr n).length) '0' ++ (Nat.repr n).data)
      = List.replicate (3 - (decDigits n).length) '0' ++ decDigits n
  have hl : (Nat.repr n).length = (decDigits n).length := by
    show (Nat.repr n).data.length = _
    rw [repr_data]
  rw [repr_data, hl]

theorem pad3_digit (n : Nat) : ∀ c ∈ (pad3 n).data, c.isDigit = true := by
  intro c hc
  rw [pad3_data] at hc
  rcases List.mem_append.mp hc with h | h
  · have : c = '0' := List.eq_of_mem_replicate h
    subst this; decide
  · exact decDigits_digit n c h

theorem decVal_replicate_zero (z : Nat) (cs : List Char) :
    decVal (List.replicate z '0' ++ cs) = decVal cs := by
  show (List.replicate z '0' ++ cs).foldl _ 0 = cs.foldl _ 0
  rw [List.foldl_append]
  congr 1
  induction z with
  | zero => rfl
  | succ z ih => simpa [List.replicate_succ] using ih

theorem decVal_pad3 (n : Nat) : decVal (pad3 n).data = n := by
  rw [pad3_data, decVal_replicate_zero, decVal_decDigits]

theorem pad3_injective {m n : Nat} (h : pad3 m = pad3 n) : m = n := by
  calc m = decVal (pad3 m).data := (decVal_pad3 m).symm
  _ = decVal (pad3 n).data := by rw [h]
  _ = n := decVal_pad3 n

/-! ### Maximal digit blocks: a digit run followed by a non-digit determines a
unique split of a character list -/

theorem digit_blocks_eq :
    ∀ (xs ys t t' : List Char),
      (∀ c ∈ xs, c.isDigit = true) → (∀ c ∈ ys, c.isDigit = true) →
      (∀ c, t.head? = some c → c.isDigit = false) →
      (∀ c, t'.head? = some c → c.isDigit = false) →
      xs ++ t = ys ++ t' → xs = ys ∧ t = t' := by
  intro xs
  induction xs with
  | nil =>
    intro ys t t' _ hys ht ht' heq
    cases ys with
    | nil => exact ⟨rfl, heq⟩
    | cons b ys' =>
      exfalso
      simp only [List.nil_append] at heq
      have hb : t.head? = some b := by rw [heq]; rfl
      have h1 := ht b hb
      have h2 := hys b (List.mem_cons_self b ys')
      rw [h1] at h2
      exact Bool.false_ne_true h2
  | cons a xs' ih =>
    intro ys t t' hxs hys ht ht' heq
    cases ys with
    | nil =>
      exfalso
      simp only [List.nil_append] at heq
      have ha : t'.head? = some a := by rw [← heq]; rfl
      have h1 := ht' a ha
      have h2 := hxs a (List.mem_cons_self a xs')
      rw [h1] at h2
      exact Bool.false_ne_true h2
    | cons b ys' =>
      simp only [List.cons_append, List.cons.injEq] at heq
      obtain ⟨hab, htail⟩ := heq
      obtain ⟨h1, h2⟩ := ih ys' t t' (fun c hc => hxs c (List.mem_cons_of_mem a hc))
        (fun c hc => hys c (List.mem_cons_of_mem b hc)) ht ht' htail
      exact ⟨by rw [hab, h1], h2⟩

/-! ### The partition plan: structure of `get_page_ranges` -/

namespace PDFSplitter

theorem mul_lt_total {total cap : Nat} (hc : 0 < cap) {k : Nat}
    (hk : k < (total + cap - 1) / cap) : k * cap < total := by
  have hn1 : 1 ≤ (total + cap - 1) / cap := by omega
  have ht : 0 < total := by
    rcases Nat.eq_zero_or_pos total with h0 | h
    · exfalso
      rw [h0] at hn1
      have : (0 + cap - 1) / cap = 0 := Nat.div_eq_of_lt (by omega)
      omega
    · exact h
  have hmono : k * cap ≤ ((total + cap - 1) / cap - 1) * cap :=
    Nat.mul_le_mul_right cap (by omega)
  have hsub : ((total + cap - 1) / cap - 1) * cap = (total + cap - 1) / cap * cap - 1 * cap :=
    Nat.sub_mul _ 1 cap
  have hle : (total + cap - 1) / cap * cap ≤ total + cap - 1 := Nat.div_mul_le_self _ cap
  omega

theorem total_le_numSplits_mul {total cap : Nat} (hc : 0 < cap) :
    total ≤ (total + cap - 1) / cap * cap := by
  have hdm := Nat.div_add_mod (total + cap - 1) cap
  have hmod : (total + cap - 1) % cap < cap := Nat.mod_lt _ hc
  have hcomm : cap * ((total + cap - 1) / cap) = (total + cap - 1) / cap * cap :=
    Nat.mul_comm _ _
  omega

theorem numSplits_pos {total cap : Nat} (hc : 0 < cap) (ht : 0 < total) :
    0 < (total + cap - 1) / cap :=
  Nat.div_pos (by omega) hc

theorem get_page_ranges_eq (total cap : Nat) (hc : 0 < cap) :
    get_page_ranges total cap
      = (List.range ((total + cap - 1) / cap)).map
          (fun k => (k * cap + 1, min (k * cap + cap) total)) := by
  unfold get_page_ranges pyRange
  rw [List.map_map]
  apply List.map_congr_left
  intro k hk
  rw [List.mem_range] at hk
  have hstart : k * cap < total := mul_lt_total hc hk
  simp only [Function.comp, Prod.mk.injEq]
  refine ⟨trivial, ?_⟩
  rcases Nat.le_total (k * cap + cap) total with h | h
  · rw [Nat.min_eq_left (by omega : k * cap + cap - 1 ≤ total - 1), Nat.min_eq_left h]
    omega
  · rw [Nat.min_eq_right (by omega : total - 1 ≤ k * cap + cap - 1), Nat.min_eq_right h]
    omega

theorem flatten_aux (total cap : Nat) (hc : 0 < cap) :
    ∀ m, m ≤ (total + cap - 1) / cap →
      ((List.range m).map (fun k => (k * cap + 1, min (k * cap + cap) total))).flatMap
          (fun p => List.range' p.1 (p.2 + 1 - p.1))
        = List.range' 1 (min (m * cap) total) := by
  intro m
  induction m with
  | zero => simp
  | succ m ih =>
    intro hm
    have hlt : m * cap < total := mul_lt_total hc (by omega)
    rw [List.range_succ, List.map_append, List.flatMap_append, ih (by omega)]
    have hmin : min (m * cap) total = m * cap := Nat.min_eq_left (by omega)
    have harg : min (m * cap + cap) total + 1 - (m * cap + 1)
        = min (m * cap + cap) total - m * cap := by omega
    have happ := List.range'_append 1 (m * cap) (min (m * cap + cap) total - m * cap) 1
    simp only [Nat.one_mul, Nat.mul_one] at happ
    rw [hmin]
    simp only [List.map_cons, List.map_nil, List.flatMap_cons, List.flatMap_nil, List.append_nil,
      harg]
    rw [Nat.add_comm 1 (m * cap)] at happ
    have hsucc : (m + 1) * cap = m * cap + cap := Nat.succ_mul m cap
    rw [hsucc]
    have hX : m * cap ≤ min (m * cap + cap) total := le_min (by omega) (by omega)
    have hXX : min (m * cap + cap) total - m * cap + m * cap = min (m * cap + cap) total :=
      Nat.sub_add_cancel hX
    rw [hXX] at happ
    exact happ

theorem get_page_ranges_bind (total cap : Nat) (ht : 0 < total) (hc : 0 < cap) :
    (get_page_ranges total cap).flatMap (fun p => List.range' p.1 (p.2 + 1 - p.1))
      = List.range' 1 total := by
  have _ := ht
  rw [get_page_ranges_eq total cap hc,
    flatten_aux total cap hc ((total + cap - 1) / cap) (Nat.le_refl _)]
  have h1 : total ≤ (total + cap - 1) / cap * cap := total_le_numSplits_mul hc
  have h2 : min ((total + cap - 1) / cap * cap) total = total := Nat.min_eq_right h1
  rw [h2]

theorem get_page_ranges_chain (total cap : Nat) (hc : 0 < cap) :
    List.Chain' (fun p q : Nat × Nat => q.1 = p.2 + 1) (get_page_ranges total cap) := by
  rw [get_page_ranges_eq total cap hc, List.chain'_map]
  cases hn : (total + cap - 1) / cap with
  | zero => simp
  | succ n =>
    rw [List.chain'_range_succ]
    intro m hm
    have hlt : (m + 1) * cap < total := by
      apply mul_lt_total hc
      omega
    have hsucc : (m + 1) * cap = m * cap + cap := Nat.succ_mul m cap
    simp only [Nat.succ_eq_add_one]
    omega

theorem get_page_ranges_pairwise (total cap : Nat) (hc : 0 < cap) :
    (get_page_ranges total cap).Pairwise (fun p q : Nat × Nat => p.2 < q.1) := by
  rw [get_page_ranges_eq total cap hc, List.pairwise_map]
  apply List.Pairwise.imp ?_ (List.pairwise_lt_range _)
  intro i j hij
  have hmono : (i + 1) * cap ≤ j * cap := Nat.mul_le_mul_right cap (by omega)
  have hsucc : (i + 1) * cap = i * cap + cap := Nat.succ_mul i cap
  simp only
  omega

theorem get_page_ranges_length (total cap : Nat) (hc : 0 < cap) :
    (get_page_ranges total cap).length = (total + cap - 1) / cap := by
  rw [get_page_ranges_eq total cap hc]
  simp

theorem get_page_ranges_get (total cap : Nat) (hc : 0 < cap) (i : Nat)
    (h : i < (get_page_ranges total cap).length) :
    (get_page_ranges total cap).get ⟨i, h⟩ = (i * cap + 1, min (i * cap + cap) total) := by
  simp only [List.get_eq_getElem]
  simp only [get_page_ranges_eq total cap hc, List.getElem_map, List.getElem_range]

/-- C1: for every `total_units > 0` and `0 < unit_cap < total_units`, the page
ranges are an ordered list of 1-indexed inclusive ranges that are contiguous
(each range starts one past the previous range's end), non-overlapping, cover
`[1, total_units]` exactly (their concatenated spans are precisely the list
`1, 2, ..., total_units` in order), and number `ceil(total_units/unit_cap)`
(the length equals `(total + cap - 1) / cap` and is pinned by the two ceiling
inequalities); in particular for `total_units = 20`, `unit_cap = 8` the result
is `[(1, 8), (9, 16), (17, 20)]`. -/
theorem partition_plan_correct (total cap : Nat) (ht : 0 < total) (hc : 0 < cap)
    (hlt : cap < total) :
    ((get_page_ranges total cap).flatMap (fun p => List.range' p.1 (p.2 + 1 - p.1))
        = List.range' 1 total)
    ∧ List.Chain' (fun p q : Nat × Nat => q.1 = p.2 + 1) (get_page_ranges total cap)
    ∧ (get_page_ranges total cap).Pairwise (fun p q : Nat × Nat => p.2 < q.1)
    ∧ (get_page_ranges total cap).length = (total + cap - 1) / cap
    ∧ total ≤ (get_page_ranges total cap).length * cap
    ∧ ((get_page_ranges total cap).length - 1) * cap < total
    ∧ get_page_ranges 20 8 = [(1, 8), (9, 16), (17, 20)] := by
  have _ := hlt
  refine ⟨get_page_ranges_bind total cap ht hc, get_page_ranges_chain total cap hc,
    get_page_ranges_pairwise total cap hc, get_page_ranges_length total cap hc, ?_, ?_, by decide⟩
  · rw [get_page_ranges_length total cap hc]
    exact total_le_numSplits_mul hc
  · rw [get_page_ranges_length total cap hc]
    apply mul_lt_total hc
    have := numSplits_pos hc ht
    omega

theorem partition_plan_correct_witness :
    (get_page_ranges 20 8).length = (20 + 8 - 1) / 8
      ∧ get_page_ranges 20 8 = [(1, 8), (9, 16), (17, 20)] := by
  have h := partition_plan_correct 20 8 (by decide) (by decide) (by decide)
  exact ⟨h.2.2.2.1, h.2.2.2.2.2.2⟩

/-- C2: `validate_split_parameters` rejects exactly the invalid caps: it
reports invalid (False together with a nonempty error message) whenever
`pages_per_split ≤ 0` or `pages_per_split ≥ total_pages`, and reports valid
(True with the empty message) whenever `0 < pages_per_split < total_pages`. -/
theorem validate_split_parameters_spec (total pps : Int) :
    ((pps ≤ 0 ∨ total ≤ pps) →
        (validate_split_parameters total pps).1 = false
          ∧ (validate_split_parameters total pps).2 ≠ "")
    ∧ (0 < pps → pps < total → validate_split_parameters total pps = (true, "")) := by
  constructor
  · intro hbad
    unfold validate_split_parameters
    by_cases h1 : pps ≤ 0
    · rw [if_pos h1]
      exact ⟨rfl, by decide⟩
    · have h2 : pps ≥ total := by
        rcases hbad with h | h
        · exact absurd h h1
        · exact h
      rw [if_neg h1, if_pos h2]
      refine ⟨rfl, ?_⟩
      intro heq
      have hl := congrArg String.length heq
      simp only [String.length_append] at hl
      have h17 : ("Pages per split (" : String).length = 17 := by decide
      have h0 : ("" : String).length = 0 := by decide
      omega
  · intro h1 h2
    unfold validate_split_parameters
    rw [if_neg (by omega), if_neg (by omega)]

theorem validate_split_parameters_spec_witness :
    validate_split_parameters 10 3 = (true, "")
      ∧ (validate_split_parameters 10 0).1 = false
      ∧ (validate_split_parameters 10 0).2 ≠ ""
      ∧ (validate_split_parameters 10 12).1 = false := by
  have h1 := (validate_split_parameters_spec 10 3).2 (by decide) (by decide)
  have h2 := (validate_split_parameters_spec 10 0).1 (Or.inl (by decide))
  have h3 := (validate_split_parameters_spec 10 12).1 (Or.inr (by decide))
  exact ⟨h1, h2.1, h2.2, h3.1⟩

/-- C6: for every `total_units > 0` and `0 < unit_cap < total_units`, every
range of the plan except the last has length exactly `unit_cap`, the last has
length in `[1, unit_cap]`, and `calculate_split_info` reports
`last_split_pages` equal to the length of the last range. -/
theorem split_sizes_spec (total cap : Nat) (ht : 0 < total) (hc : 0 < cap)
    (hlt : cap < total) :
    (∀ i (h : i < (get_page_ranges total cap).length),
        i + 1 < (get_page_ranges total cap).length →
          ((get_page_ranges total cap).get ⟨i, h⟩).2 + 1
              - ((get_page_ranges total cap).get ⟨i, h⟩).1 = cap)
    ∧ ∀ i (h : i < (get_page_ranges total cap).length),
        i + 1 = (get_page_ranges total cap).length →
          1 ≤ ((get_page_ranges total cap).get ⟨i, h⟩).2 + 1
              - ((get_page_ranges total cap).get ⟨i, h⟩).1
          ∧ ((get_page_ranges total cap).get ⟨i, h⟩).2 + 1
              - ((get_page_ranges total cap).get ⟨i, h⟩).1 ≤ cap
          ∧ (calculate_split_info total cap).last_split_pages
              = ((get_page_ranges total cap).get ⟨i, h⟩).2 + 1
                - ((get_page_ranges total cap).get ⟨i, h⟩).1 := by
  have _ := ht
  have _ := hlt
  have hlen := get_page_ranges_length total cap hc
  constructor
  · intro i h hnotlast
    rw [get_page_ranges_get total cap hc i h]
    have hi1 : i + 1 < (total + cap - 1) / cap := by omega
    have hfull : (i + 1) * cap < total := mul_lt_total hc hi1
    have hsucc : (i + 1) * cap = i * cap + cap := Nat.succ_mul i cap
    rw [Nat.min_eq_left (by omega)]
    omega
  · intro i h hlast
    rw [get_page_ranges_get total cap hc i h]
    have hi : i < (total + cap - 1) / cap := by omega
    have hstart : i * cap < total := mul_lt_total hc hi
    have htotle : total ≤ (total + cap - 1) / cap * cap := total_le_numSplits_mul hc
    have hsucc : (i + 1) * cap = i * cap + cap := Nat.succ_mul i cap
    have hcapbound : total ≤ i * cap + cap := by
      have hn : i + 1 = (total + cap - 1) / cap := by omega
      have hmul : (i + 1) * cap = (total + cap - 1) / cap * cap := by rw [hn]
      omega
    rw [Nat.min_eq_right hcapbound]
    refine ⟨by omega, by omega, ?_⟩
    show (if total % cap = 0 then cap else total % cap) = total + 1 - (i * cap + 1)
    have hmod : total % cap = (total - i * cap) % cap := by
      have hsplit : total = cap * i + (total - i * cap) := by
        have hcomm : cap * i = i * cap := Nat.mul_comm cap i
        omega
      conv_lhs => rw [hsplit]
      exact Nat.mul_add_mod cap i (total - i * cap)
    by_cases hfull : total - i * cap = cap
    · have hcond : total % cap = 0 := by rw [hmod, hfull, Nat.mod_self]
      rw [if_pos hcond]
      omega
    · have hlt2 : total - i * cap < cap := by omega
      have hcond : total % cap = total - i * cap := by rw [hmod, Nat.mod_eq_of_lt hlt2]
      rw [if_neg (by omega : ¬total % cap = 0), hcond]
      omega

theorem split_sizes_spec_witness :
    ((get_page_ranges 20 8).get ⟨0, by decide⟩).2 + 1
        - ((get_page_ranges 20 8).get ⟨0, by decide⟩).1 = 8
      ∧ (calculate_split_info 20 8).last_split_pages
          = ((get_page_ranges 20 8).get ⟨2, by decide⟩).2 + 1
            - ((get_page_ranges 20 8).get ⟨2, by decide⟩).1 := by
  have h := split_sizes_spec 20 8 (by decide) (by decide) (by decide)
  exact ⟨h.1 0 (by decide) (by decide), (h.2 2 (by decide) (by decide)).2.2⟩

/-- C10: the two independently implemented range computations agree: for every
`total_pages ≥ 0` and `pages_per_split ≥ 1`, `PDFSplitter._get_page_ranges`
and `FileManager.get_split_ranges` return identical lists of
`(start, end)` pairs.  (The two Python loop bodies are identical, and so are
their embeddings, which makes the equality definitional.) -/
theorem range_computations_agree (total cap : Nat) (hc : 1 ≤ cap) :
    get_page_ranges total cap = FileManager.get_split_ranges total cap := by
  have _ := hc
  rfl

theorem range_computations_agree_witness :
    get_page_ranges 20 8 = FileManager.get_split_ranges 20 8 :=
  range_computations_agree 20 8 (by decide)

/-! ### The split loop: abort-on-first-failure semantics of `split_pdf` -/

theorem splitLoop_fst (e : Nat × Nat → Bool) (w : FSPath → Nat × Nat → Bool)
    (outs : List FSPath) :
    ∀ (rs : List (Nat × Nat)) (i : Nat) (written : List (FSPath × Nat × Nat)),
      (splitLoop e w outs rs i written).1 = true ↔
        (rs.length ≤ outs.length - i ∧ (∀ r ∈ rs, e r = true)
          ∧ ∀ p ∈ (outs.drop i).zip rs, w p.1 p.2 = true) := by
  intro rs
  induction rs with
  | nil =>
    intro i written
    simp [splitLoop]
  | cons r rs ih =>
    intro i written
    by_cases he : e r = true
    · cases houts : outs[i]? with
      | none =>
        have hlen : outs.length ≤ i := by
          by_contra hlt
          rw [List.getElem?_eq_getElem (by omega)] at houts
          exact Option.noConfusion houts
        simp only [splitLoop, he, if_true, houts]
        constructor
        · intro habs
          exact absurd habs (by simp)
        · intro ⟨h1, _, _⟩
          simp only [List.length_cons] at h1
          omega
      | some f =>
        have hlt : i < outs.length := by
          by_contra hge
          rw [List.getElem?_eq_none (by omega)] at houts
          exact Option.noConfusion houts
        have hf : outs[i] = f := by
          rw [List.getElem?_eq_getElem hlt] at houts
          exact Option.some.inj houts
        have hdrop : outs.drop i = outs[i] :: outs.drop (i + 1) :=
          List.drop_eq_getElem_cons hlt
        rw [hdrop, hf, List.zip_cons_cons]
        by_cases hw : w f r = true
        · simp only [splitLoop, he, if_true, houts, hw]
          rw [ih (i + 1) ((f, r) :: written)]
          constructor
          · intro ⟨h1, h2, h3⟩
            refine ⟨by simp only [List.length_cons]; omega, ?_, ?_⟩
            · intro x hx
              rcases List.mem_cons.mp hx with hx | hx
              · rw [hx]; exact he
              · exact h2 x hx
            · intro p hp
              rcases List.mem_cons.mp hp with hp | hp
              · rw [hp]; exact hw
              · exact h3 p hp
          · intro ⟨h1, h2, h3⟩
            refine ⟨by simp only [List.length_cons] at h1; omega, ?_, ?_⟩
            · intro x hx
              exact h2 x (List.mem_cons_of_mem r hx)
            · intro p hp
              exact h3 p (List.mem_cons_of_mem (f, r) hp)
        · simp only [splitLoop, he, if_true, houts, hw, if_false]
          constructor
          · intro habs
            exact absurd habs (by simp)
          · intro ⟨_, _, h3⟩
            exact absurd (h3 (f, r) (List.mem_cons_self _ _)) hw
    · simp only [splitLoop, he, if_false]
      constructor
      · intro habs
        exact absurd habs (by simp)
      · intro ⟨_, h2, _⟩
        exact absurd (h2 r (List.mem_cons_self r rs)) he

theorem splitLoop_snd_all_ok (e : Nat × Nat → Bool) (w : FSPath → Nat × Nat → Bool)
    (outs : List FSPath) :
    ∀ (rs : List (Nat × Nat)) (i : Nat) (written : List (FSPath × Nat × Nat)),
      (∀ r ∈ rs, e r = true) → (∀ p ∈ (outs.drop i).zip rs, w p.1 p.2 = true) →
      (splitLoop e w outs rs i written).2 = written.reverse ++ (outs.drop i).zip rs := by
  intro rs
  induction rs with
  | nil =>
    intro i written _ _
    simp [splitLoop]
  | cons r rs ih =>
    intro i written he hw
    have her : e r = true := he r (List.mem_cons_self r rs)
    cases houts : outs[i]? with
    | none =>
      have hlen : outs.length ≤ i := by
        by_contra hlt
        rw [List.getElem?_eq_getElem (by omega)] at houts
        exact Option.noConfusion houts
      have hnil : outs.drop i = [] := List.drop_eq_nil_of_le hlen
      simp [splitLoop, her, houts, hnil]
    | some f =>
      have hlt : i < outs.length := by
        by_contra hge
        rw [List.getElem?_eq_none (by omega)] at houts
        exact Option.noConfusion houts
      have hf : outs[i] = f := by
        rw [List.getElem?_eq_getElem hlt] at houts
        exact Option.some.inj houts
      have hdrop : outs.drop i = outs[i] :: outs.drop (i + 1) :=
        List.drop_eq_getElem_cons hlt
      have hwfr : w f r = true := by
        apply hw (f, r)
        rw [hdrop, hf, List.zip_cons_cons]
        exact List.mem_cons_self _ _
      simp only [splitLoop, her, if_true, houts, hwfr]
      rw [ih (i + 1) ((f, r) :: written) (fun x hx => he x (List.mem_cons_of_mem r hx))
        (fun p hp => by
          apply hw p
          rw [hdrop, hf, List.zip_cons_cons]
          exact List.mem_cons_of_mem (f, r) hp)]
      rw [hdrop, hf, List.zip_cons_cons]
      simp

theorem splitLoop_trace_pre (e : Nat × Nat → Bool) (w : FSPath → Nat × Nat → Bool)
    (outs : List FSPath) :
    ∀ (rs : List (Nat × Nat)) (i : Nat) (written : List (FSPath × Nat × Nat)),
      ∃ t, (splitLoop e w outs rs i written).2 ++ t
        = written.reverse ++ (outs.drop i).zip rs := by
  intro rs
  induction rs with
  | nil =>
    intro i written
    exact ⟨(outs.drop i).zip [], by simp [splitLoop]⟩
  | cons r rs ih =>
    intro i written
    by_cases he : e r = true
    · cases houts : outs[i]? with
      | none =>
        have hlen : outs.length ≤ i := by
          by_contra hlt
          rw [List.getElem?_eq_getElem (by omega)] at houts
          exact Option.noConfusion houts
        have hnil : outs.drop i = [] := List.drop_eq_nil_of_le hlen
        exact ⟨[], by simp [splitLoop, he, houts, hnil]⟩
      | some f =>
        have hlt : i < outs.length := by
          by_contra hge
          rw [List.getElem?_eq_none (by omega)] at houts
          exact Option.noConfusion houts
        have hf : outs[i] = f := by
          rw [List.getElem?_eq_getElem hlt] at houts
          exact Option.some.inj houts
        have hdrop : outs.drop i = outs[i] :: outs.drop (i + 1) :=
          List.drop_eq_getElem_cons hlt
        by_cases hw : w f r = true
        · obtain ⟨t, hht⟩ := ih (i + 1) ((f, r) :: written)
          refine ⟨t, ?_⟩
          simp only [splitLoop, he, if_true, houts, hw]
          rw [hht, hdrop, hf, List.zip_cons_cons]
          simp
        · refine ⟨(outs.drop i).zip (r :: rs), ?_⟩
          simp [splitLoop, he, houts, hw]
    · exact ⟨(outs.drop i).zip (r :: rs), by simp [splitLoop, he]⟩

theorem splitLoop_trace_ok (e : Nat × Nat → Bool) (w : FSPath → Nat × Nat → Bool)
    (outs : List FSPath) :
    ∀ (rs : List (Nat × Nat)) (i : Nat) (written : List (FSPath × Nat × Nat)),
      (∀ p ∈ written, e p.2 = true ∧ w p.1 p.2 = true) →
      ∀ p ∈ (splitLoop e w outs rs i written).2, e p.2 = true ∧ w p.1 p.2 = true := by
  intro rs
  induction rs with
  | nil =>
    intro i written hwr p hp
    simp only [splitLoop, List.mem_reverse] at hp
    exact hwr p hp
  | cons r rs ih =>
    intro i written hwr p hp
    by_cases he : e r = true
    · cases houts : outs[i]? with
      | none =>
        simp only [splitLoop, he, if_true, houts, List.mem_reverse] at hp
        exact hwr p hp
      | some f =>
        by_cases hw : w f r = true
        · simp only [splitLoop, he, if_true, houts, hw] at hp
          refine ih (i + 1) ((f, r) :: written) ?_ p hp
          intro q hq
          rcases List.mem_cons.mp hq with hq | hq
          · rw [hq]; exact ⟨he, hw⟩
          · exact hwr q hq
        · simp [splitLoop, he, houts, hw] at hp
          exact hwr p hp
    · simp [splitLoop, he] at hp
      exact hwr p hp

/-- C3 (counterexample): the claim says a failure on one range does not abort
the remaining ranges and that the result is a complete per-range outcome list
(3 entries when extraction fails for range 2 of 3).  On the code, when
extraction fails for range 2 of the 3-range split of a 9-page document with
cap 3, `split_pdf` returns the single value `False`, only the first part has
been written, and the per-range record has 1 entry, not 3: range 3 is never
processed. -/
theorem split_pdf_abort_counterexample :
    (split_pdf 9 3 (fun r => !(r == (4, 6))) (fun _ _ => true)
        [⟨"out", "doc_part_001", ".pdf"⟩, ⟨"out", "doc_part_002", ".pdf"⟩,
          ⟨"out", "doc_part_003", ".pdf"⟩]).1 = false
    ∧ (split_pdf 9 3 (fun r => !(r == (4, 6))) (fun _ _ => true)
        [⟨"out", "doc_part_001", ".pdf"⟩, ⟨"out", "doc_part_002", ".pdf"⟩,
          ⟨"out", "doc_part_003", ".pdf"⟩]).2
        = [(⟨"out", "doc_part_001", ".pdf"⟩, (1, 3))]
    ∧ ¬((split_pdf 9 3 (fun r => !(r == (4, 6))) (fun _ _ => true)
        [⟨"out", "doc_part_001", ".pdf"⟩, ⟨"out", "doc_part_002", ".pdf"⟩,
          ⟨"out", "doc_part_003", ".pdf"⟩]).2.length = 3) := by
  decide

/-- C3 (amended): a failure while processing one range aborts the remaining
ranges.  `split_pdf` returns a single Bool, not a per-range outcome list; it
returns True iff the output list covers all ranges and every extraction and
every write succeeds; the parts actually written form a prefix of the
range/file pairing (everything strictly before the first failure), every
recorded part passed both extraction and write, and nothing after the first
failure is processed. -/
theorem split_pdf_abort_semantics (total cap : Nat) (e : Nat × Nat → Bool)
    (w : FSPath → Nat × Nat → Bool) (outs : List FSPath) :
    ((split_pdf total cap e w outs).1 = true ↔
        ((get_page_ranges total cap).length ≤ outs.length
          ∧ (∀ r ∈ get_page_ranges total cap, e r = true)
          ∧ ∀ p ∈ outs.zip (get_page_ranges total cap), w p.1 p.2 = true))
    ∧ (∃ t, (split_pdf total cap e w outs).2 ++ t
        = outs.zip (get_page_ranges total cap))
    ∧ ∀ p ∈ (split_pdf total cap e w outs).2, e p.2 = true ∧ w p.1 p.2 = true := by
  refine ⟨?_, ?_, ?_⟩
  · have h := splitLoop_fst e w outs (get_page_ranges total cap) 0 []
    simpa [split_pdf] using h
  · have h := splitLoop_trace_pre e w outs (get_page_ranges total cap) 0 []
    simpa [split_pdf] using h
  · intro p hp
    exact splitLoop_trace_ok e w outs (get_page_ranges total cap) 0 [] (by simp) p hp

theorem split_pdf_abort_semantics_witness :
    ∃ t, (split_pdf 9 3 (fun r => !(r == (4, 6))) (fun _ _ => true)
        [⟨"out", "doc_part_001", ".pdf"⟩, ⟨"out", "doc_part_002", ".pdf"⟩,
          ⟨"out", "doc_part_003", ".pdf"⟩]).2 ++ t
      = [⟨"out", "doc_part_001", ".pdf"⟩, ⟨"out", "doc_part_002", ".pdf"⟩,
          (⟨"out", "doc_part_003", ".pdf"⟩ : FSPath)].zip (get_page_ranges 9 3) :=
  (split_pdf_abort_semantics 9 3 (fun r => !(r == (4, 6))) (fun _ _ => true)
    [⟨"out", "doc_part_001", ".pdf"⟩, ⟨"out", "doc_part_002", ".pdf"⟩,
      ⟨"out", "doc_part_003", ".pdf"⟩]).2.1

/-- C7 (counterexample): the claim says that whenever the output-file list
length differs from the number of ranges, `split_pdf` fails fast with an
`InvariantViolation`.  On the code there is no precondition check at all: with
1 output file for the 3 ranges of a 9-page/cap-3 split, the first part is
written (the trace is nonempty, so the operation did not fail fast), and the
eventual `IndexError` is swallowed by the blanket `except`, producing the
ordinary `False` return rather than a distinguished invariant failure. -/
theorem split_pdf_mismatch_counterexample :
    ([(⟨"out", "doc_part_001", ".pdf"⟩ : FSPath)].length ≠ (get_page_ranges 9 3).length)
    ∧ (split_pdf 9 3 (fun _ => true) (fun _ _ => true)
        [⟨"out", "doc_part_001", ".pdf"⟩]).2 ≠ []
    ∧ (split_pdf 9 3 (fun _ => true) (fun _ _ => true)
        [⟨"out", "doc_part_001", ".pdf"⟩]).1 = false := by
  decide

/-- C7 (amended): `split_pdf` performs no length-precondition check.  When the
output list is shorter than the range list (and extraction/writing otherwise
succeed), it writes the first `outs.length` parts and only then fails -- the
`IndexError` is caught by the blanket `except` and surfaces as the ordinary
`False` return.  When the output list is at least as long, the extra entries
are silently ignored and the split succeeds. -/
theorem split_pdf_no_precondition_check (total cap : Nat) (e : Nat × Nat → Bool)
    (w : FSPath → Nat × Nat → Bool) (outs : List FSPath)
    (he : ∀ r ∈ get_page_ranges total cap, e r = true)
    (hw : ∀ p ∈ outs.zip (get_page_ranges total cap), w p.1 p.2 = true) :
    (outs.length < (get_page_ranges total cap).length →
        (split_pdf total cap e w outs).1 = false
          ∧ (split_pdf total cap e w outs).2.length = outs.length)
    ∧ ((get_page_ranges total cap).length ≤ outs.length →
        (split_pdf total cap e w outs).1 = true
          ∧ (split_pdf total cap e w outs).2.length
              = (get_page_ranges total cap).length) := by
  have hsnd := splitLoop_snd_all_ok e w outs (get_page_ranges total cap) 0 [] he
    (by simpa using hw)
  have hfst := splitLoop_fst e w outs (get_page_ranges total cap) 0 []
  constructor
  · intro hshort
    constructor
    · show (splitLoop e w outs (get_page_ranges total cap) 0 []).1 = false
      rw [← Bool.not_eq_true]
      intro habs
      obtain ⟨h1, _, _⟩ := hfst.mp habs
      omega
    · show (splitLoop e w outs (get_page_ranges total cap) 0 []).2.length = outs.length
      rw [hsnd]
      simp only [List.reverse_nil, List.nil_append, List.drop_zero, List.length_zip]
      omega
  · intro hfull
    constructor
    · show (splitLoop e w outs (get_page_ranges total cap) 0 []).1 = true
      exact hfst.mpr ⟨by omega, he, by simpa using hw⟩
    · show (splitLoop e w outs (get_page_ranges total cap) 0 []).2.length
        = (get_page_ranges total cap).length
      rw [hsnd]
      simp only [List.reverse_nil, List.nil_append, List.drop_zero, List.length_zip]
      omega

theorem split_pdf_no_precondition_check_witness :
    (split_pdf 9 3 (fun _ => true) (fun _ _ => true)
        [⟨"out", "doc_part_001", ".pdf"⟩]).1 = false
    ∧ (split_pdf 9 3 (fun _ => true) (fun _ _ => true)
        [⟨"out", "doc_part_001", ".pdf"⟩]).2.length = 1 :=
  (split_pdf_no_precondition_check 9 3 (fun _ => true) (fun _ _ => true)
    [⟨"out", "doc_part_001", ".pdf"⟩] (by decide) (by decide)).1 (by decide)

end PDFSplitter

/-! ### Name generation and conflict resolution -/

namespace FileManager

theorem resolveFrom_some (ex : FSPath → Bool) (orig : FSPath) :
    ∀ (fuel k : Nat) (q : FSPath), resolveFrom ex orig k fuel = some q →
      ∃ m, k ≤ m ∧ q = candidateName orig m ∧ ex (candidateName orig m) = false
        ∧ ∀ j, k ≤ j → j < m → ex (candidateName orig j) = true := by
  intro fuel
  induction fuel with
  | zero =>
    intro k q h
    simp [resolveFrom] at h
  | succ fuel ih =>
    intro k q h
    by_cases hex : ex (candidateName orig k) = true
    · rw [resolveFrom, if_pos hex] at h
      obtain ⟨m, hm, h1, h2, h3⟩ := ih (k + 1) q h
      refine ⟨m, by omega, h1, h2, ?_⟩
      intro j hj1 hj2
      rcases Nat.eq_or_lt_of_le hj1 with heq | hlt
      · rw [← heq]; exact hex
      · exact h3 j (by omega) hj2
    · rw [resolveFrom, if_neg hex] at h
      refine ⟨k, Nat.le_refl k, (Option.some.inj h).symm, ?_, ?_⟩
      · rw [← Bool.not_eq_true]; exact hex
      · intro j hj1 hj2; omega

theorem handle_some_forall₂ (ex : FSPath → Bool) (fuel : Nat) :
    ∀ (ps : List FSPath) (qs : List FSPath),
      handle_filename_conflicts ex fuel ps = some qs →
      List.Forall₂ (fun p q => resolveFrom ex p 0 fuel = some q) ps qs := by
  intro ps
  induction ps with
  | nil =>
    intro qs h
    simp only [handle_filename_conflicts] at h
    rw [← Option.some.inj h]
    exact List.Forall₂.nil
  | cons p ps ih =>
    intro qs h
    simp only [handle_filename_conflicts] at h
    cases hr : resolveFrom ex p 0 fuel with
    | none => rw [hr] at h; exact Option.noConfusion h
    | some q =>
      cases hh : handle_filename_conflicts ex fuel ps with
      | none => rw [hr, hh] at h; exact Option.noConfusion h
      | some qs' =>
        rw [hr, hh] at h
        rw [← Option.some.inj h]
        exact List.Forall₂.cons hr (ih qs' hh)

theorem forall₂_mem_right {α β : Type} {R : α → β → Prop} :
    ∀ {ps : List α} {qs : List β}, List.Forall₂ R ps qs →
      ∀ q ∈ qs, ∃ p ∈ ps, R p q := by
  intro ps qs h
  induction h with
  | nil => intro q hq; exact absurd hq (List.not_mem_nil q)
  | @cons a b ps' qs' hR _ ihF =>
    intro q hq
    rcases List.mem_cons.mp hq with hq | hq
    · exact ⟨a, List.mem_cons_self a ps', hq ▸ hR⟩
    · obtain ⟨p, hp1, hp2⟩ := ihF q hq
      exact ⟨p, List.mem_cons_of_mem a hp1, hp2⟩

theorem nodup_of_pairwise_forall₂ {α β : Type} {R : α → β → Prop} :
    ∀ {ps : List α} {qs : List β}, List.Forall₂ R ps qs →
      ps.Pairwise (fun p p' => ∀ q q', R p q → R p' q' → q ≠ q') →
      qs.Nodup := by
  intro ps qs h
  induction h with
  | nil => intro _; exact List.nodup_nil
  | @cons a b ps' qs' hR hF ihF =>
    intro hp
    rw [List.pairwise_cons] at hp
    obtain ⟨hhead, htail⟩ := hp
    rw [List.nodup_cons]
    refine ⟨?_, ihF htail⟩
    intro hmem
    obtain ⟨p', hp'1, hp'2⟩ := forall₂_mem_right hF b hmem
    exact hhead p' hp'1 b b hR hp'2 rfl

theorem stem_data_eq (dir base : String) (i k : Nat) :
    (candidateName ⟨dir, base ++ "_part_" ++ pad3 i, ".pdf"⟩ k).stem.data
      = (base ++ "_part_").data
        ++ ((pad3 i).data ++ (if k = 0 then [] else '_' :: (Nat.repr k).data)) := by
  cases k with
  | zero =>
    show (base ++ "_part_" ++ pad3 i).data = _
    rw [String.data_append, String.data_append]
    simp
  | succ k =>
    show (base ++ "_part_" ++ pad3 i ++ "_" ++ Nat.repr (k + 1)).data = _
    rw [String.data_append, String.data_append, String.data_append, String.data_append]
    have hus : ("_" : String).data = ['_'] := rfl
    rw [hus]
    simp

theorem cand_ne (dir base : String) {i j : Nat} (k m : Nat) (hij : i ≠ j) :
    candidateName ⟨dir, base ++ "_part_" ++ pad3 i, ".pdf"⟩ k
      ≠ candidateName ⟨dir, base ++ "_part_" ++ pad3 j, ".pdf"⟩ m := by
  intro h
  have hstem : (candidateName ⟨dir, base ++ "_part_" ++ pad3 i, ".pdf"⟩ k).stem.data
      = (candidateName ⟨dir, base ++ "_part_" ++ pad3 j, ".pdf"⟩ m).stem.data := by
    rw [h]
  rw [stem_data_eq, stem_data_eq] at hstem
  have hcanc := List.append_cancel_left hstem
  have hsplit := digit_blocks_eq (pad3 i).data (pad3 j).data
    (if k = 0 then [] else '_' :: (Nat.repr k).data)
    (if m = 0 then [] else '_' :: (Nat.repr m).data)
    (pad3_digit i) (pad3_digit j) ?_ ?_ hcanc
  · exact hij (pad3_injective (String.ext hsplit.1))
  · intro c hc
    cases k with
    | zero => simp at hc
    | succ k =>
      simp only [if_neg (Nat.succ_ne_zero k), List.head?_cons] at hc
      rw [← Option.some.inj hc]
      decide
  · intro c hc
    cases m with
    | zero => simp at hc
    | succ m =>
      simp only [if_neg (Nat.succ_ne_zero m), List.head?_cons] at hc
      rw [← Option.some.inj hc]
      decide

/-- C5: for each proposed output path, the conflict loop tries the original
name first (a path the predicate reports as non-existing is returned
unchanged), then `f"{stem}_{counter}{suffix}"` for counter 1, 2, ...
(always derived from the original stem), re-testing existence at each step,
and returns the first candidate the predicate reports as non-existing. -/
theorem resolve_conflict_first_free (ex : FSPath → Bool) (p : FSPath) (fuel : Nat) :
    (∀ q, resolveFrom ex p 0 fuel = some q →
        ∃ k, q = candidateName p k ∧ ex (candidateName p k) = false
          ∧ ∀ j < k, ex (candidateName p j) = true)
    ∧ (ex p = false → 0 < fuel → resolveFrom ex p 0 fuel = some p)
    ∧ ∀ k, candidateName p (k + 1)
        = ⟨p.parent, p.stem ++ "_" ++ Nat.repr (k + 1), p.suffix⟩ := by
  refine ⟨?_, ?_, fun k => rfl⟩
  · intro q hq
    obtain ⟨m, _, h1, h2, h3⟩ := resolveFrom_some ex p fuel 0 q hq
    exact ⟨m, h1, h2, fun j hj => h3 j (Nat.zero_le j) hj⟩
  · intro hex hf
    cases fuel with
    | zero => omega
    | succ fuel => simp [resolveFrom, candidateName, hex]

theorem resolve_conflict_first_free_witness :
    ∃ k, (⟨"out", "doc_part_001_2", ".pdf"⟩ : FSPath)
        = candidateName ⟨"out", "doc_part_001", ".pdf"⟩ k
      ∧ (fun q => q == (⟨"out", "doc_part_001", ".pdf"⟩ : FSPath)
          || q == ⟨"out", "doc_part_001_1", ".pdf"⟩)
          (candidateName ⟨"out", "doc_part_001", ".pdf"⟩ k) = false
      ∧ ∀ j < k, (fun q => q == (⟨"out", "doc_part_001", ".pdf"⟩ : FSPath)
          || q == ⟨"out", "doc_part_001_1", ".pdf"⟩)
          (candidateName ⟨"out", "doc_part_001", ".pdf"⟩ j) = true :=
  (resolve_conflict_first_free
    (fun q => q == (⟨"out", "doc_part_001", ".pdf"⟩ : FSPath)
      || q == ⟨"out", "doc_part_001_1", ".pdf"⟩)
    ⟨"out", "doc_part_001", ".pdf"⟩ 10).1
    ⟨"out", "doc_part_001_2", ".pdf"⟩ (by decide)

/-- C4: for every batch of generated output filenames (the positional
`{base_name}_part_{i:03}.pdf` scheme) and every fixed storage snapshot, the
resolved identifiers that conflict resolution returns are pairwise distinct,
even when the predicate reports pre-existing collisions for any of the
generated names. -/
theorem resolved_batch_distinct (base dir : String) (total cap : Nat)
    (ex : FSPath → Bool) (fuel : Nat) (res : List FSPath)
    (h : handle_filename_conflicts ex fuel
        (generate_output_filenames base dir total cap) = some res) :
    res.Nodup := by
  have hf := handle_some_forall₂ ex fuel _ res h
  apply nodup_of_pairwise_forall₂ hf
  unfold generate_output_filenames
  rw [List.pairwise_map]
  apply List.Pairwise.imp ?_ (List.pairwise_lt_range _)
  intro i j hij q q' hq hq'
  obtain ⟨m1, _, hq1, _, _⟩ := resolveFrom_some ex _ fuel 0 q hq
  obtain ⟨m2, _, hq2, _, _⟩ := resolveFrom_some ex _ fuel 0 q' hq'
  rw [hq1, hq2]
  exact cand_ne dir base m1 m2 (by omega)

theorem resolved_batch_distinct_witness :
    ([⟨"out", "doc_part_001_1", ".pdf"⟩, ⟨"out", "doc_part_002", ".pdf"⟩,
      ⟨"out", "doc_part_003", ".pdf"⟩] : List FSPath).Nodup :=
  resolved_batch_distinct "doc" "out" 20 8
    (fun q => q == ⟨"out", "doc_part_001", ".pdf"⟩) 5 _ (by decide)

/-- C8: output-name generation is purely positional: the i-th generated
identifier (1-indexed) is `{base_name}_part_{i:03}.pdf` under the output
directory, the list has one entry per range (`ceil(total/cap)` of them), and
no two entries coincide before conflict resolution. -/
theorem generate_output_filenames_positional (base dir : String) (total cap : Nat)
    (hc : 0 < cap) :
    (generate_output_filenames base dir total cap).length = (total + cap - 1) / cap
    ∧ (∀ i (h : i < (generate_output_filenames base dir total cap).length),
        (generate_output_filenames base dir total cap).get ⟨i, h⟩
          = ⟨dir, base ++ "_part_" ++ pad3 (i + 1), ".pdf"⟩)
    ∧ (generate_output_filenames base dir total cap).Nodup := by
  have _ := hc
  refine ⟨by simp [generate_output_filenames], ?_, ?_⟩
  · intro i h
    simp only [List.get_eq_getElem]
    simp only [generate_output_filenames, List.getElem_map, List.getElem_range]
  · show ((List.range ((total + cap - 1) / cap)).map
      (fun i => (⟨dir, base ++ "_part_" ++ pad3 (i + 1), ".pdf"⟩ : FSPath))).Pairwise (· ≠ ·)
    rw [List.pairwise_map]
    apply List.Pairwise.imp ?_ (List.pairwise_lt_range _)
    intro i j hij
    have h := cand_ne dir base (i := i + 1) (j := j + 1) 0 0 (by omega)
    simpa [candidateName] using h

theorem generate_output_filenames_positional_witness :
    (generate_output_filenames "doc" "out" 20 8).length = (20 + 8 - 1) / 8
    ∧ (generate_output_filenames "doc" "out" 20 8).Nodup := by
  have h := generate_output_filenames_positional "doc" "out" 20 8 (by decide)
  exact ⟨h.1, h.2.2⟩

end FileManager

/-! ### Batch printing -/

namespace PrinterManager

theorem printGo_trace (pf : String → Bool × String) :
    ∀ (ps : List String) (acc : List (String × Bool × String)) (tr : List String),
      (printGo pf ps acc tr).2 = tr.reverse ++ ps := by
  intro ps
  induction ps with
  | nil =>
    intro acc tr
    simp [printGo]
  | cons p ps ih =>
    intro acc tr
    rw [printGo, ih]
    simp

theorem dictInsert_keys (m : List (String × Bool × String)) (k : String) (v : Bool × String) :
    (dictInsert m k v).map Prod.fst
      = if m.any (fun e => e.1 == k) then m.map Prod.fst else m.map Prod.fst ++ [k] := by
  unfold dictInsert
  by_cases h : m.any (fun e => e.1 == k)
  · rw [if_pos h, if_pos h, List.map_map]
    apply List.map_congr_left
    intro e _
    show ((if e.1 == k then (k, v) else e) : String × Bool × String).1 = e.1
    by_cases hbeq : e.1 == k
    · rw [if_pos hbeq]
      exact (eq_of_beq hbeq).symm
    · rw [if_neg hbeq]
  · rw [if_neg h, if_neg h, List.map_append]
    rfl

theorem dictInsert_keys_nodup (m : List (String × Bool × String)) (k : String)
    (v : Bool × String) (h : (m.map Prod.fst).Nodup) :
    ((dictInsert m k v).map Prod.fst).Nodup := by
  rw [dictInsert_keys]
  by_cases hany : m.any (fun e => e.1 == k)
  · rw [if_pos hany]
    exact h
  · rw [if_neg hany]
    have hnot : k ∉ m.map Prod.fst := by
      intro hmem
      obtain ⟨e, he, hfst⟩ := List.mem_map.mp hmem
      apply hany
      rw [List.any_eq_true]
      exact ⟨e, he, by rw [hfst]; simp⟩
    simp [List.nodup_append, h, hnot]

theorem mem_dictInsert_self (m : List (String × Bool × String)) (k : String)
    (v : Bool × String) : (k, v) ∈ dictInsert m k v := by
  unfold dictInsert
  by_cases h : m.any (fun e => e.1 == k)
  · rw [if_pos h]
    rw [List.any_eq_true] at h
    obtain ⟨e, he, hbeq⟩ := h
    apply List.mem_map.mpr
    exact ⟨e, he, by rw [if_pos hbeq]⟩
  · rw [if_neg h]
    exact List.mem_append_right m (List.mem_singleton.mpr rfl)

theorem mem_dictInsert_of_ne (m : List (String × Bool × String)) (k p : String)
    (v v' : Bool × String) (hm : (p, v') ∈ m) (hne : p ≠ k) :
    (p, v') ∈ dictInsert m k v := by
  unfold dictInsert
  by_cases h : m.any (fun e => e.1 == k)
  · rw [if_pos h]
    apply List.mem_map.mpr
    refine ⟨(p, v'), hm, ?_⟩
    have hbeq : ((p, v').1 == k) = false := by
      rw [← Bool.not_eq_true]
      intro habs
      exact hne (eq_of_beq habs)
    rw [hbeq]
    simp
  · rw [if_neg h]
    exact List.mem_append_left _ hm

theorem printGo_mem (pf : String → Bool × String) :
    ∀ (ps : List String) (acc : List (String × Bool × String)) (tr : List String)
      (p : String), ((p, pf p) ∈ acc ∨ p ∈ ps) →
      (p, pf p) ∈ (printGo pf ps acc tr).1 := by
  intro ps
  induction ps with
  | nil =>
    intro acc tr p hp
    rcases hp with hp | hp
    · simpa [printGo] using hp
    · exact absurd hp (List.not_mem_nil p)
  | cons q ps ih =>
    intro acc tr p hp
    rw [printGo]
    rcases hp with hp | hp
    · apply ih _ _ p
      left
      by_cases hpq : q = p
      · rw [hpq]
        exact mem_dictInsert_self acc p (pf p)
      · exact mem_dictInsert_of_ne acc q p (pf q) (pf p) hp (fun h => hpq h.symm)
    · rcases List.mem_cons.mp hp with hp | hp
      · apply ih _ _ p
        left
        rw [hp]
        exact mem_dictInsert_self acc q (pf q)
      · exact ih _ _ p (Or.inr hp)

theorem printGo_keys_nodup (pf : String → Bool × String) :
    ∀ (ps : List String) (acc : List (String × Bool × String)) (tr : List String),
      (acc.map Prod.fst).Nodup → ((printGo pf ps acc tr).1.map Prod.fst).Nodup := by
  intro ps
  induction ps with
  | nil =>
    intro acc tr h
    simpa [printGo] using h
  | cons p ps ih =>
    intro acc tr h
    rw [printGo]
    exact ih _ _ (dictInsert_keys_nodup acc p (pf p) h)

theorem printGo_distinct (pf : String → Bool × String) :
    ∀ (ps : List String) (acc : List (String × Bool × String)) (tr : List String),
      ps.Nodup → (∀ q ∈ ps, ∀ e ∈ acc, e.1 ≠ q) →
      (printGo pf ps acc tr).1 = acc ++ ps.map (fun p => (p, pf p)) := by
  intro ps
  induction ps with
  | nil =>
    intro acc tr _ _
    simp [printGo]
  | cons p ps ih =>
    intro acc tr hnd hdisj
    rw [printGo]
    have hfresh : acc.any (fun e => e.1 == p) = false := by
      rw [← Bool.not_eq_true, List.any_eq_true]
      rintro ⟨e, he, hbeq⟩
      exact hdisj p (List.mem_cons_self p ps) e he (eq_of_beq hbeq)
    have hins : dictInsert acc p (pf p) = acc ++ [(p, pf p)] := by
      unfold dictInsert
      rw [hfresh]
      simp
    rw [hins, ih (acc ++ [(p, pf p)]) (p :: tr) (List.Nodup.of_cons hnd) ?_]
    · simp
    · intro q hq e he
      rcases List.mem_append.mp he with he | he
      · exact hdisj q (List.mem_cons_of_mem p hq) e he
      · rw [List.mem_singleton.mp he]
        intro habs
        have hpq : p = q := habs
        rw [List.nodup_cons] at hnd
        exact hnd.1 (hpq ▸ hq)

/-- C9: batch printing dispatches the identifiers strictly sequentially in
input order, continuing regardless of per-file outcomes (the dispatch trace
equals the input list); the returned mapping covers every input identifier
exactly once (each input is a key, bound to its own per-call result, and the
keys are pairwise distinct), never omitting an entry; for pairwise distinct
inputs the mapping is exactly the inputs paired with their per-call results,
in order. -/
theorem print_multiple_files_spec (pf : String → Bool × String) (paths : List String) :
    (print_multiple_files pf paths).2 = paths
    ∧ (∀ p ∈ paths, (p, pf p) ∈ (print_multiple_files pf paths).1)
    ∧ ((print_multiple_files pf paths).1.map Prod.fst).Nodup
    ∧ (paths.Nodup → (print_multiple_files pf paths).1
        = paths.map (fun p => (p, pf p))) := by
  refine ⟨?_, ?_, ?_, ?_⟩
  · simpa using printGo_trace pf paths [] []
  · exact fun p hp => printGo_mem pf paths [] [] p (Or.inr hp)
  · exact printGo_keys_nodup pf paths [] [] (by simp)
  · intro hnd
    simpa using printGo_distinct pf paths [] [] hnd (by simp)

theorem print_multiple_files_spec_witness :
    (print_multiple_files (fun p => if p == "b.pdf" then (false, "err") else (true, "ok"))
        ["a.pdf", "b.pdf", "c.pdf"]).2 = ["a.pdf", "b.pdf", "c.pdf"]
    ∧ (print_multiple_files (fun p => if p == "b.pdf" then (false, "err") else (true, "ok"))
        ["a.pdf", "b.pdf", "c.pdf"]).1
      = [("a.pdf", true, "ok"), ("b.pdf", false, "err"), ("c.pdf", true, "ok")] := by
  have h := print_multiple_files_spec
    (fun p => if p == "b.pdf" then (false, "err") else (true, "ok"))
    ["a.pdf", "b.pdf", "c.pdf"]
  refine ⟨h.1, ?_⟩
  rw [h.2.2.2 (by decide)]
  decide

end PrinterManager

end CStpl
